import Mathlib

/-!
Shallow embedding of the policy-calculation engine of
`src/attendance_tracker.py` (the four pure functions `get_week_start`,
`summarize_weeks`, `best_8_week_attendance`, `calculate_future_needs`),
together with proofs of the specification claims about them.

Embedding conventions:

* A Python `datetime.date` is embedded as an integer `d : ℤ`: its
  proleptic-Gregorian ordinal shifted so that day `0` is a Monday.  Under
  this bijection `date ± timedelta(days=k)` is `d ± k`,
  `timedelta(weeks=w)` is `7 * w`, and `date.weekday()` (0 for Monday … 6
  for Sunday) is `d % 7` (`Int.emod`, always in `[0, 7)`).  Subtraction of
  two dates yields the signed day difference, exactly as
  `(a - b).days` does in Python.
* A Python `set` of dates becomes a `Finset ℤ`.
* A Python dict keyed by week-start dates becomes an association list
  `List (ℤ × _)`.  The insertion order of the dict built by
  `summarize_weeks` is the iteration order of the input `set`, which
  Python leaves unspecified; the embedding canonicalises it to ascending
  key order.  Every property proved below about a summary is insensitive
  to this order.
* Python's `sorted` (a stable sort, with `key`/`reverse` expressed as the
  comparator) is `List.mergeSort`, which is also stable.
* The call `datetime.today().date()` executed inside
  `calculate_future_needs` (line 37) is an ambient input of the function;
  the embedding threads it through as the explicit argument `today`.
* Python `//` on integers is floor division, i.e. `Int.fdiv`.
* Python integer arithmetic is unbounded, i.e. `ℤ` (and counts of
  elements are `ℕ`, coerced to `ℤ` where they meet subtraction).
-/

namespace AttendanceTracker

/-- Embedding of the module constant `POLICY_DAYS_REQUIRED = 24` (line 11). -/
def POLICY_DAYS_REQUIRED : ℤ := 24

/-- Embedding of `get_week_start` (lines 14–15):
`date - timedelta(days=date.weekday())`. -/
def get_week_start (d : ℤ) : ℤ := d - d % 7

/-- Embedding of `summarize_weeks` (lines 20–25): group the attendance
dates by `get_week_start` and record the size of each group.  The dict
`{k: len(v) for k, v in summary.items()}` is rendered as the association
list over the distinct week-starts of the input, in ascending key order
(see the note on dict order in the file header). -/
def summarize_weeks (attendance : Finset ℤ) : List (ℤ × ℕ) :=
  ((attendance.image get_week_start).sort (· ≤ ·)).map
    (fun w => (w, (attendance.filter (fun d => get_week_start d = w)).card))

/-- Embedding of `past_12_weeks` (line 29):
`[cutoff - timedelta(weeks=w) for w in range(1, 13)]` where
`cutoff = get_week_start(reference_date)`. -/
def past_12_weeks (reference : ℤ) : List ℤ :=
  (List.range 12).map (fun w : ℕ => get_week_start reference - 7 * ((w : ℤ) + 1))

/-- Embedding of `relevant_days` (line 30):
`[d for d in attendance if get_week_start(d) in past_12_weeks]`, as the
subset of the attendance set (the source list enumerates each set element
once, so the list and the set carry the same dates). -/
def relevant_days (attendance : Finset ℤ) (reference : ℤ) : Finset ℤ :=
  attendance.filter (fun d => get_week_start d ∈ past_12_weeks reference)

/-- Comparator used by `sorted(summary.items(), key=lambda x: x[1],
reverse=True)` (line 32): descending by count, stable on ties. -/
def descending_by_count (a b : ℤ × ℕ) : Bool := decide (b.2 ≤ a.2)

/-- Embedding of `best_8_week_attendance` (lines 27–34).  Returns
`(sum(days for _, days in best_8), summary, best_8)` where `best_8` is
the first 8 items of the summary sorted by count descending. -/
def best_8_week_attendance (attendance : Finset ℤ) (reference : ℤ) :
    ℕ × List (ℤ × ℕ) × List (ℤ × ℕ) :=
  let summary := summarize_weeks (relevant_days attendance reference)
  let best_8 := (summary.mergeSort descending_by_count).take 8
  ((best_8.map Prod.snd).sum, summary, best_8)

/-- Number of out-of-office days falling in the week starting at `week`:
`len([d for d in ooo_days if get_week_start(d) == week])` (line 52). -/
def ooo_count (ooo_days : Finset ℤ) (week : ℤ) : ℕ :=
  (ooo_days.filter (fun d => get_week_start d = week)).card

/-- Embedding of `available_days` (line 52):
`min(3, 5 - len([d for d in ooo_days if get_week_start(d) == week]))`.
Note the source does not clamp this below at 0. -/
def available_days (ooo_days : Finset ℤ) (week : ℤ) : ℤ :=
  min 3 (5 - (ooo_count ooo_days week : ℤ))

/-- Embedding of `num_weeks` (line 42):
`(end_week - start_week).days // 7 + 1` with
`start_week = get_week_start(today)` and
`end_week = get_week_start(reference_date + timedelta(weeks=5))`. -/
def num_weeks (reference today : ℤ) : ℤ :=
  (get_week_start (reference + 35) - get_week_start today).fdiv 7 + 1

/-- Embedding of `candidate_weeks` (line 43):
`[start_week + timedelta(weeks=w) for w in range(num_weeks)]`; a
non-positive `num_weeks` yields the empty list, exactly as Python's
`range` does. -/
def candidate_weeks (reference today : ℤ) : List ℤ :=
  (List.range (num_weeks reference today).toNat).map
    (fun w : ℕ => get_week_start today + 7 * (w : ℤ))

/-- Embedding of `current_total` (line 46):
`sum(sorted(summary.values(), reverse=True)[:8])`. -/
def current_total (summary : List (ℤ × ℕ)) : ℕ :=
  (((summary.map Prod.snd).mergeSort (fun a b => decide (b ≤ a))).take 8).sum

/-- Embedding of the allocation loop of `calculate_future_needs`
(lines 49–61): walk the candidate weeks in order carrying the remaining
shortfall; each week receives `min(available_days, shortfall)`; when the
remaining shortfall reaches `<= 0` the loop breaks (line 56) and the
unvisited weeks are filled with `0` (lines 59–61).  The result is the
plan as an association list in candidate-week order. -/
def alloc_loop (ooo_days : Finset ℤ) : List ℤ → ℤ → List (ℤ × ℤ)
  | [], _ => []
  | week :: rest, shortfall =>
    let allocated := min (available_days ooo_days week) shortfall
    if shortfall - allocated ≤ 0 then
      (week, allocated) :: rest.map (fun w => (w, 0))
    else
      (week, allocated) :: alloc_loop ooo_days rest (shortfall - allocated)

/-- Embedding of `calculate_future_needs` (lines 36–63).  `today` is the
value of `datetime.today().date()` (line 37).  The initial shortfall is
`max(POLICY_DAYS_REQUIRED - current_total, 0)` (line 47).  The final
`dict(sorted(plan.items()))` (line 63) is the identity on the
candidate-order association list, because the plan's keys are exactly the
candidate weeks, generated in strictly ascending order (proved below). -/
def calculate_future_needs (summary : List (ℤ × ℕ)) (ooo_days : Finset ℤ)
    (reference today : ℤ) : List (ℤ × ℤ) :=
  alloc_loop ooo_days (candidate_weeks reference today)
    (max (POLICY_DAYS_REQUIRED - (current_total summary : ℤ)) 0)

/-! ### Basic properties of week bucketing -/

lemma get_week_start_emod_self (d : ℤ) : get_week_start d % 7 = 0 := by
  unfold get_week_start
  omega

lemma get_week_start_idem (d : ℤ) :
    get_week_start (get_week_start d) = get_week_start d := by
  unfold get_week_start
  omega

/-! ### The lookback window of the Best-Subset Selector -/

lemma exists_week_index {c x : ℤ} (hc : c % 7 = 0) (hx : x % 7 = 0)
    (h1 : c - 84 ≤ x) (h2 : x < c) :
    ∃ k : ℕ, k < 12 ∧ c - 7 * ((k : ℤ) + 1) = x := by
  have h7 : (7 : ℤ) ∣ (c - x) := by omega
  obtain ⟨m, hm⟩ := h7
  exact ⟨(m - 1).toNat, by omega, by omega⟩

lemma mem_past_12_weeks_iff (r d : ℤ) :
    get_week_start d ∈ past_12_weeks r ↔
      get_week_start r - 84 ≤ get_week_start d ∧
        get_week_start d < get_week_start r := by
  simp only [past_12_weeks, List.mem_map, List.mem_range]
  constructor
  · rintro ⟨k, hk, he⟩
    unfold get_week_start at he ⊢
    omega
  · rintro ⟨h1, h2⟩
    exact exists_week_index (get_week_start_emod_self r) (get_week_start_emod_self d) h1 h2

/-! ### Keys of the weekly summary -/

lemma summarize_map_fst (S : Finset ℤ) :
    (summarize_weeks S).map Prod.fst = (S.image get_week_start).sort (· ≤ ·) := by
  unfold summarize_weeks
  rw [List.map_map]
  have h : (Prod.fst ∘ fun w : ℤ =>
      (w, (S.filter (fun d => get_week_start d = w)).card)) = id := rfl
  rw [h, List.map_id]

lemma summarize_sum (S : Finset ℤ) :
    ((summarize_weeks S).map Prod.snd).sum = S.card := by
  unfold summarize_weeks
  rw [List.map_map]
  have h : (Prod.snd ∘ fun w => (w, (S.filter (fun d => get_week_start d = w)).card)) =
      fun w => (S.filter (fun d => get_week_start d = w)).card := rfl
  rw [h]
  have hperm := (Finset.sort_perm_toList (· ≤ ·) (S.image get_week_start)).map
      (fun w => (S.filter (fun d => get_week_start d = w)).card)
  rw [hperm.sum_eq, Finset.sum_to_list]
  exact (Finset.card_eq_sum_card_image get_week_start S).symm

lemma summarize_key_fixed {S : Finset ℤ} {p : ℤ × ℕ} (hp : p ∈ summarize_weeks S) :
    get_week_start p.1 = p.1 := by
  unfold summarize_weeks at hp
  simp only [List.mem_map] at hp
  obtain ⟨w, hw, rfl⟩ := hp
  rw [Finset.mem_sort, Finset.mem_image] at hw
  obtain ⟨d, _, rfl⟩ := hw
  exact get_week_start_idem d

lemma mem_best8_mem_summary {summary : List (ℤ × ℕ)} {p : ℤ × ℕ}
    (hp : p ∈ (summary.mergeSort descending_by_count).take 8) : p ∈ summary :=
  (summary.mergeSort_perm descending_by_count).mem_iff.mp
    ((List.take_sublist _ _).subset hp)

/-! ### Keys of the allocation plan -/

lemma map_fst_map_pair_zero (L : List ℤ) :
    (L.map (fun w => (w, (0 : ℤ)))).map Prod.fst = L := by
  induction L with
  | nil => rfl
  | cons a l ih => simp [ih]

lemma alloc_loop_keys (o : Finset ℤ) (l : List ℤ) :
    ∀ sh : ℤ, (alloc_loop o l sh).map Prod.fst = l := by
  induction l with
  | nil => intro sh; rfl
  | cons w rest ih =>
    intro sh
    simp only [alloc_loop]
    split
    · simp only [List.map_cons, map_fst_map_pair_zero]
    · simp only [List.map_cons, ih]

lemma candidate_week_emod {r t w : ℤ} (hw : w ∈ candidate_weeks r t) : w % 7 = 0 := by
  unfold candidate_weeks at hw
  simp only [List.mem_map, List.mem_range] at hw
  obtain ⟨k, _, rfl⟩ := hw
  have h := get_week_start_emod_self t
  omega

lemma candidate_weeks_pairwise (r t : ℤ) : (candidate_weeks r t).Pairwise (· < ·) := by
  unfold candidate_weeks
  rw [List.pairwise_map]
  exact (List.pairwise_lt_range _).imp (by intro a b h; omega)

lemma num_weeks_eq (r t : ℤ) :
    7 * (num_weeks r t - 1) = get_week_start (r + 35) - get_week_start t := by
  unfold num_weeks
  have h7 : (7 : ℤ) ∣ (get_week_start (r + 35) - get_week_start t) := by
    have h1 := get_week_start_emod_self (r + 35)
    have h2 := get_week_start_emod_self t
    omega
  obtain ⟨m, hm⟩ := h7
  rw [hm, Int.mul_fdiv_cancel_left _ (by norm_num)]
  ring

lemma mem_candidate_weeks_iff (r t w : ℤ) :
    w ∈ candidate_weeks r t ↔
      get_week_start t ≤ w ∧ w ≤ get_week_start (r + 35) ∧ w % 7 = 0 := by
  have hnum := num_weeks_eq r t
  have hts := get_week_start_emod_self t
  unfold candidate_weeks
  simp only [List.mem_map, List.mem_range]
  constructor
  · rintro ⟨k, hk, rfl⟩
    refine ⟨by omega, by omega, by omega⟩
  · rintro ⟨h1, h2, h3⟩
    have h7 : (7 : ℤ) ∣ (w - get_week_start t) := by omega
    obtain ⟨m, hm⟩ := h7
    exact ⟨m.toNat, by omega, by omega⟩

lemma num_weeks_nonpos_candidates {r t : ℤ} (h : num_weeks r t ≤ 0) :
    candidate_weeks r t = [] := by
  unfold candidate_weeks
  have h0 : (num_weeks r t).toNat = 0 := by omega
  rw [h0]
  rfl

/-! ### The allocation loop conserves the shortfall -/

lemma map_pair_zero_snd_sum (L : List ℤ) :
    ((L.map (fun w => (w, (0 : ℤ)))).map Prod.snd).sum = 0 := by
  induction L with
  | nil => rfl
  | cons w rest ih =>
    simp only [List.map_cons, List.sum_cons, ih]
    rfl

lemma alloc_loop_sum (o : Finset ℤ) (l : List ℤ) :
    ∀ sh : ℤ, 0 ≤ sh → sh ≤ (l.map (available_days o)).sum →
      ((alloc_loop o l sh).map Prod.snd).sum = sh := by
  induction l with
  | nil =>
    intro sh h0 hle
    simp only [List.map_nil, List.sum_nil] at hle
    simp only [alloc_loop, List.map_nil, List.sum_nil]
    omega
  | cons w rest ih =>
    intro sh h0 hle
    simp only [List.map_cons, List.sum_cons] at hle
    simp only [alloc_loop]
    split
    · rename_i hstop
      simp only [List.map_cons, List.sum_cons, map_pair_zero_snd_sum]
      omega
    · rename_i hcont
      simp only [List.map_cons, List.sum_cons]
      rw [ih (sh - min (available_days o w) sh) (by omega) (by omega)]
      omega

/-! ### Top-8 sums: the sum of the first `k` entries of a descending sort
is the greatest sum of any `k` entries -/

/-- Sum of the first `k` counts of the summary values sorted descending —
the quantity `sum(sorted(values, reverse=True)[:k])` computed by the
source at lines 32/34 and 46 (there with `k = 8`). -/
def topsum (k : ℕ) (l : List ℕ) : ℕ :=
  ((l.mergeSort (fun a b => decide (b ≤ a))).take k).sum

lemma current_total_eq_topsum (summary : List (ℤ × ℕ)) :
    current_total summary = topsum 8 (summary.map Prod.snd) := rfl

lemma mergeSort_desc_sorted (l : List ℕ) :
    (l.mergeSort (fun a b => decide (b ≤ a))).Pairwise (fun a b : ℕ => b ≤ a) := by
  have h := List.sorted_mergeSort
    (fun a b c : ℕ => fun h1 h2 => by
      have h1' : b ≤ a := of_decide_eq_true h1
      have h2' : c ≤ b := of_decide_eq_true h2
      exact decide_eq_true (h2'.trans h1'))
    (fun a b : ℕ => by
      rcases le_total b a with h | h
      · rw [Bool.or_eq_true]
        exact Or.inl (decide_eq_true h)
      · rw [Bool.or_eq_true]
        exact Or.inr (decide_eq_true h)) l
  exact h.imp (fun hb => of_decide_eq_true hb)

lemma mergeSort_pairs_sorted (l : List (ℤ × ℕ)) :
    (l.mergeSort descending_by_count).Pairwise (fun a b : ℤ × ℕ => b.2 ≤ a.2) := by
  have h := List.sorted_mergeSort
    (fun a b c : ℤ × ℕ => fun h1 h2 => by
      have h1' : b.2 ≤ a.2 := of_decide_eq_true h1
      have h2' : c.2 ≤ b.2 := of_decide_eq_true h2
      exact decide_eq_true (h2'.trans h1'))
    (fun a b : ℤ × ℕ => by
      rcases le_total b.2 a.2 with h | h
      · rw [Bool.or_eq_true]
        exact Or.inl (decide_eq_true h)
      · rw [Bool.or_eq_true]
        exact Or.inr (decide_eq_true h)) l
  exact h.imp (fun hb => of_decide_eq_true hb)

lemma sum_take_le_cons (b : ℕ) (l : List ℕ) (hb : ∀ x ∈ l, x ≤ b) (k : ℕ) :
    (l.take k).sum ≤ ((b :: l).take k).sum := by
  cases k with
  | zero => simp
  | succ j =>
    rw [List.take_succ_cons, List.take_succ, List.sum_append, List.sum_cons]
    rcases h : l[j]? with _ | x
    · simp only [h, Option.toList_none, List.sum_nil]
      omega
    · have hx : x ≤ b := hb x (List.getElem?_mem h)
      simp only [h, Option.toList_some, List.sum_cons, List.sum_nil]
      omega

lemma sum_le_sum_take_of_sublist {l t : List ℕ} (h : t.Sublist l) :
    l.Pairwise (fun a b : ℕ => b ≤ a) →
      ∀ k : ℕ, t.length ≤ k → t.sum ≤ (l.take k).sum := by
  induction h with
  | slnil =>
    intro _ k _
    simp
  | @cons t' l' b hsub ih =>
    intro hs k hk
    rw [List.pairwise_cons] at hs
    exact (ih hs.2 k hk).trans (sum_take_le_cons b l' hs.1 k)
  | @cons₂ t' l' a hsub ih =>
    intro hs k hk
    rw [List.pairwise_cons] at hs
    cases k with
    | zero => simp at hk
    | succ j =>
      rw [List.take_succ_cons]
      simp only [List.sum_cons]
      have hlen : t'.length ≤ j := by
        simp only [List.length_cons] at hk
        omega
      have := ih hs.2 j hlen
      omega

/-! ### Bounding any small sub-multiset by the top-k sum -/

lemma le_topsum_of_subperm {s l : List ℕ} (h : s.Subperm l) {k : ℕ}
    (hk : s.length ≤ k) : s.sum ≤ topsum k l := by
  have h2 : s.Subperm (l.mergeSort (fun a b => decide (b ≤ a))) :=
    h.trans (l.mergeSort_perm _).symm.subperm
  obtain ⟨t, ht_perm, ht_sub⟩ := h2
  have hlen : t.length ≤ k := ht_perm.length_eq.trans_le hk
  have hsum := sum_le_sum_take_of_sublist ht_sub (mergeSort_desc_sorted l) k hlen
  rw [ht_perm.sum_eq] at hsum
  exact hsum

lemma topsum_achieved (k : ℕ) (l : List ℕ) :
    ∃ s : List ℕ, s.Subperm l ∧ s.length ≤ k ∧ s.sum = topsum k l := by
  refine ⟨(l.mergeSort (fun a b => decide (b ≤ a))).take k,
    ((List.take_sublist _ _).subperm).trans (l.mergeSort_perm _).subperm, ?_, rfl⟩
  rw [List.length_take]
  exact min_le_left _ _

lemma le_topsum_of_multiset_le {m : Multiset ℕ} {l : List ℕ} (h : m ≤ ↑l) {k : ℕ}
    (hk : Multiset.card m ≤ k) : m.sum ≤ topsum k l := by
  have h1 : m.toList.Subperm l := by
    rw [← Multiset.coe_le, Multiset.coe_toList]
    exact h
  have h2 : m.toList.length ≤ k := by
    rw [Multiset.length_toList]
    exact hk
  have h3 := le_topsum_of_subperm h1 h2
  rwa [Multiset.sum_toList] at h3

lemma topsum_mono_of_sub {k : ℕ} {l l' : List ℕ}
    (h : ∀ m : Multiset ℕ, m ≤ ↑l → Multiset.card m ≤ k →
      ∃ m' : Multiset ℕ, m' ≤ ↑l' ∧ Multiset.card m' ≤ k ∧ m.sum ≤ m'.sum) :
    topsum k l ≤ topsum k l' := by
  obtain ⟨s, hsub, hlen, hsum⟩ := topsum_achieved k l
  obtain ⟨m', hm'le, hm'card, hm'sum⟩ := h ↑s (Multiset.coe_le.mpr hsub)
    (by simpa using hlen)
  calc topsum k l = ((s : Multiset ℕ)).sum := by rw [Multiset.sum_coe, hsum]
  _ ≤ m'.sum := hm'sum
  _ ≤ topsum k l' := le_topsum_of_multiset_le hm'le hm'card

lemma topsum_cons_le (k : ℕ) (a : ℕ) (l : List ℕ) :
    topsum k l ≤ topsum k (a :: l) := by
  refine topsum_mono_of_sub (fun m hm hc => ⟨m, ?_, hc, le_refl _⟩)
  rw [← Multiset.cons_coe]
  exact hm.trans (Multiset.le_cons_self _ a)

lemma topsum_bump_head (k : ℕ) (a : ℕ) (l : List ℕ) :
    topsum k (a :: l) ≤ topsum k ((a + 1) :: l) := by
  refine topsum_mono_of_sub (fun m hm hc => ?_)
  rw [← Multiset.cons_coe] at hm
  by_cases hmem : a ∈ m
  · refine ⟨(a + 1) ::ₘ m.erase a, ?_, ?_, ?_⟩
    · rw [← Multiset.cons_coe]
      have he : m.erase a ≤ (a ::ₘ (l : Multiset ℕ)).erase a :=
        Multiset.erase_le_erase a hm
      rw [Multiset.erase_cons_head] at he
      exact Multiset.cons_le_cons (a + 1) he
    · rw [Multiset.card_cons, Multiset.card_erase_of_mem hmem]
      have hpos : 0 < Multiset.card m := Multiset.card_pos_iff_exists_mem.mpr ⟨a, hmem⟩
      have hpred : (Multiset.card m).pred = Multiset.card m - 1 := rfl
      omega
    · have hdecomp : a ::ₘ m.erase a = m := Multiset.cons_erase hmem
      calc m.sum = (a ::ₘ m.erase a).sum := by rw [hdecomp]
      _ = a + (m.erase a).sum := Multiset.sum_cons a _
      _ ≤ (a + 1) + (m.erase a).sum := by omega
      _ = ((a + 1) ::ₘ m.erase a).sum := (Multiset.sum_cons _ _).symm
  · refine ⟨m, ?_, hc, le_refl _⟩
    rw [← Multiset.cons_coe]
    exact ((Multiset.le_cons_of_not_mem hmem).mp hm).trans (Multiset.le_cons_self _ _)

/-! ### The zero fill after the allocation loop breaks -/

lemma alloc_loop_zero_fill (o : Finset ℤ) (l : List ℤ) :
    ∀ sh : ℤ, ∃ n : ℕ, n ≤ l.length ∧
      (alloc_loop o l sh).drop n = (l.drop n).map (fun w => (w, (0 : ℤ))) ∧
      (n = l.length ∨
        (((alloc_loop o l sh).map Prod.snd).take n).sum = sh) := by
  induction l with
  | nil =>
    intro sh
    exact ⟨0, le_refl _, rfl, Or.inl rfl⟩
  | cons w rest ih =>
    intro sh
    simp only [alloc_loop]
    split
    · rename_i hstop
      refine ⟨1, by simp, by simp, Or.inr ?_⟩
      simp only [List.map_cons, List.take_succ_cons, List.take_zero,
        List.sum_cons, List.sum_nil]
      omega
    · rename_i hcont
      obtain ⟨n, hn, hdrop, hor⟩ := ih (sh - min (available_days o w) sh)
      refine ⟨n + 1, by simpa using hn, by simpa using hdrop, ?_⟩
      rcases hor with h | h
      · exact Or.inl (by simp [h])
      · refine Or.inr ?_
        simp only [List.map_cons, List.take_succ_cons, List.sum_cons, h]
        omega

/-! ### Invariance of the top-k sum under permutation -/

lemma mergeSort_desc_eq_of_perm {l l' : List ℕ} (h : l.Perm l') :
    l.mergeSort (fun a b => decide (b ≤ a)) =
      l'.mergeSort (fun a b => decide (b ≤ a)) := by
  have hs1 : List.Sorted (fun a b : ℕ => b ≤ a)
      (l.mergeSort (fun a b => decide (b ≤ a))) := mergeSort_desc_sorted l
  have hs2 : List.Sorted (fun a b : ℕ => b ≤ a)
      (l'.mergeSort (fun a b => decide (b ≤ a))) := mergeSort_desc_sorted l'
  exact List.eq_of_perm_of_sorted
    ((l.mergeSort_perm _).trans (h.trans (l'.mergeSort_perm _).symm)) hs1 hs2

lemma topsum_perm {l l' : List ℕ} (h : l.Perm l') (k : ℕ) :
    topsum k l = topsum k l' := by
  unfold topsum
  rw [mergeSort_desc_eq_of_perm h]

/-! ### Inserting one attendance day can only raise the top-k of the
summary values -/

lemma summarize_snd_eq (S : Finset ℤ) :
    (summarize_weeks S).map Prod.snd =
      ((S.image get_week_start).sort (· ≤ ·)).map
        (fun w => (S.filter (fun d => get_week_start d = w)).card) := by
  unfold summarize_weeks
  rw [List.map_map]
  rfl

lemma topsum_map_bump {w0 : ℤ} (kl : List ℤ) (hnd : kl.Nodup) (hw0 : w0 ∈ kl)
    (f f' : ℤ → ℕ) (hagree : ∀ w, w ≠ w0 → f' w = f w)
    (hbump : f' w0 = f w0 + 1) (k : ℕ) :
    topsum k (kl.map f) ≤ topsum k (kl.map f') := by
  have hperm := List.perm_cons_erase hw0
  have herase : (kl.erase w0).map f' = (kl.erase w0).map f :=
    List.map_congr_left (fun w hw => hagree w ((hnd.mem_erase_iff.mp hw).1))
  calc topsum k (kl.map f)
      = topsum k (f w0 :: (kl.erase w0).map f) := topsum_perm (hperm.map f) k
    _ ≤ topsum k ((f w0 + 1) :: (kl.erase w0).map f) := topsum_bump_head k (f w0) _
    _ = topsum k (f' w0 :: (kl.erase w0).map f') := by rw [hbump, herase]
    _ = topsum k (kl.map f') := (topsum_perm (hperm.map f') k).symm

lemma count_filter_insert {S : Finset ℤ} {d : ℤ} (hd : d ∉ S) (w : ℤ) :
    ((insert d S).filter (fun x => get_week_start x = w)).card =
      if get_week_start d = w then
        (S.filter (fun x => get_week_start x = w)).card + 1
      else (S.filter (fun x => get_week_start x = w)).card := by
  rw [Finset.filter_insert]
  split
  · rw [Finset.card_insert_of_not_mem (fun hmem => hd (Finset.mem_filter.mp hmem).1)]
  · rfl

lemma topsum_vals_insert_le (S : Finset ℤ) (d : ℤ) (hd : d ∉ S) (k : ℕ) :
    topsum k ((summarize_weeks S).map Prod.snd) ≤
      topsum k ((summarize_weeks (insert d S)).map Prod.snd) := by
  rw [summarize_snd_eq, summarize_snd_eq]
  by_cases hmem : get_week_start d ∈ S.image get_week_start
  · have himg : (insert d S).image get_week_start = S.image get_week_start := by
      rw [Finset.image_insert, Finset.insert_eq_self.mpr hmem]
    rw [himg]
    refine topsum_map_bump _ (Finset.sort_nodup _ _)
      ((Finset.mem_sort (· ≤ ·)).mpr hmem) _ _ (fun w hw => ?_) ?_ k
    · rw [count_filter_insert hd w, if_neg (fun he => hw he.symm)]
    · rw [count_filter_insert hd (get_week_start d), if_pos rfl]
  · have himg : (insert d S).image get_week_start =
        insert (get_week_start d) (S.image get_week_start) := Finset.image_insert _ _ _
    rw [himg]
    have hperm : ((insert (get_week_start d) (S.image get_week_start)).sort (· ≤ ·)).Perm
        (get_week_start d :: (S.image get_week_start).sort (· ≤ ·)) := by
      refine (Finset.sort_perm_toList _ _).trans
        ((Finset.toList_insert hmem).trans ?_)
      exact ((Finset.sort_perm_toList (· ≤ ·) (S.image get_week_start)).symm).cons _
    have hcongr : ((S.image get_week_start).sort (· ≤ ·)).map
        (fun w => ((insert d S).filter (fun x => get_week_start x = w)).card) =
          ((S.image get_week_start).sort (· ≤ ·)).map
            (fun w => (S.filter (fun x => get_week_start x = w)).card) := by
      refine List.map_congr_left (fun w hw => ?_)
      have hwmem : w ∈ S.image get_week_start := (Finset.mem_sort (· ≤ ·)).mp hw
      have hne : get_week_start d ≠ w := fun he => hmem (he ▸ hwmem)
      rw [count_filter_insert hd w, if_neg hne]
    have hone : ((insert d S).filter
        (fun x => get_week_start x = get_week_start d)).card = 1 := by
      rw [count_filter_insert hd (get_week_start d), if_pos rfl]
      have hz : S.filter (fun x => get_week_start x = get_week_start d) = ∅ :=
        Finset.filter_eq_empty_iff.mpr
          (fun x hx hxw => hmem (Finset.mem_image.mpr ⟨x, hx, hxw⟩))
      rw [hz, Finset.card_empty]
    calc topsum k (((S.image get_week_start).sort (· ≤ ·)).map
          (fun w => (S.filter (fun x => get_week_start x = w)).card))
        ≤ topsum k (1 :: ((S.image get_week_start).sort (· ≤ ·)).map
            (fun w => (S.filter (fun x => get_week_start x = w)).card)) :=
          topsum_cons_le k 1 _
      _ = topsum k ((get_week_start d :: (S.image get_week_start).sort (· ≤ ·)).map
            (fun w => ((insert d S).filter (fun x => get_week_start x = w)).card)) := by
          simp only [List.map_cons, hone, hcongr]
      _ = topsum k (((insert (get_week_start d) (S.image get_week_start)).sort (· ≤ ·)).map
            (fun w => ((insert d S).filter (fun x => get_week_start x = w)).card)) :=
          (topsum_perm (hperm.map _) k).symm

/-! ### Bridging the selector's pair-sort to the value-sort -/

lemma mergeSort_pairs_map_snd (l : List (ℤ × ℕ)) :
    (l.mergeSort descending_by_count).map Prod.snd =
      (l.map Prod.snd).mergeSort (fun a b => decide (b ≤ a)) := by
  have hperm : ((l.mergeSort descending_by_count).map Prod.snd).Perm
      ((l.map Prod.snd).mergeSort (fun a b => decide (b ≤ a))) :=
    ((l.mergeSort_perm descending_by_count).map Prod.snd).trans
      ((l.map Prod.snd).mergeSort_perm _).symm
  have hs1 : List.Sorted (fun a b : ℕ => b ≤ a)
      ((l.mergeSort descending_by_count).map Prod.snd) :=
    (List.pairwise_map).mpr (mergeSort_pairs_sorted l)
  have hs2 : List.Sorted (fun a b : ℕ => b ≤ a)
      ((l.map Prod.snd).mergeSort (fun a b => decide (b ≤ a))) :=
    mergeSort_desc_sorted _
  exact List.eq_of_perm_of_sorted hperm hs1 hs2

lemma best8_fst_eq_topsum (a : Finset ℤ) (r : ℤ) :
    (best_8_week_attendance a r).1 =
      topsum 8 ((summarize_weeks (relevant_days a r)).map Prod.snd) := by
  show ((((summarize_weeks (relevant_days a r)).mergeSort
    descending_by_count).take 8).map Prod.snd).sum = _
  rw [List.map_take, mergeSort_pairs_map_snd]
  rfl

/-! ### Claim theorems -/

/-- C9: for every calendar date `d`, applying the Week Bucketing function
twice yields the same result as applying it once:
`get_week_start (get_week_start d) = get_week_start d`. -/
theorem c9_week_bucketing_idempotent (d : ℤ) :
    get_week_start (get_week_start d) = get_week_start d :=
  get_week_start_idem d

/-- C2: the Best-Subset Selector's date filter keeps exactly the dates of
the attendance set whose week-start lies in the 12 weeks strictly before
the reference week: a date in the cutoff week itself
(`get_week_start d = get_week_start reference`) is excluded, a date whose
week-start is exactly 12 weeks (84 days) before cutoff is included, and a
date whose week-start is 13 or more weeks before cutoff falls below the
`- 84` bound and is excluded. -/
theorem c2_best8_window_boundary (attendance : Finset ℤ) (reference d : ℤ) :
    d ∈ relevant_days attendance reference ↔
      d ∈ attendance ∧
        get_week_start reference - 84 ≤ get_week_start d ∧
          get_week_start d < get_week_start reference := by
  unfold relevant_days
  rw [Finset.mem_filter, mem_past_12_weeks_iff]

/-- C5: the Weekly Summarizer conserves cardinality — the values of
`summarize_weeks S` sum to `S.card` — its keys are exactly the week-starts
containing at least one date of `S`, and no key carries the value 0. -/
theorem c5_summary_conservation (S : Finset ℤ) :
    ((summarize_weeks S).map Prod.snd).sum = S.card
    ∧ (∀ w : ℤ, w ∈ (summarize_weeks S).map Prod.fst ↔
        ∃ d ∈ S, get_week_start d = w)
    ∧ (∀ p ∈ summarize_weeks S, 0 < p.2) := by
  refine ⟨summarize_sum S, fun w => ?_, fun p hp => ?_⟩
  · rw [summarize_map_fst, Finset.mem_sort, Finset.mem_image]
  · unfold summarize_weeks at hp
    simp only [List.mem_map] at hp
    obtain ⟨w, hw, rfl⟩ := hp
    rw [Finset.mem_sort, Finset.mem_image] at hw
    obtain ⟨d, hd, hdw⟩ := hw
    exact Finset.card_pos.mpr ⟨d, Finset.mem_filter.mpr ⟨hd, hdw⟩⟩

unseal List.merge List.mergeSort in
/-- Witness for C5 at the concrete set `{0}`. -/
theorem c5_summary_conservation_witness :
    ((summarize_weeks ({0} : Finset ℤ)).map Prod.snd).sum = ({0} : Finset ℤ).card
    ∧ 0 < (((0 : ℤ), 1) : ℤ × ℕ).2 :=
  ⟨(c5_summary_conservation {0}).1,
   (c5_summary_conservation {0}).2.2 (0, 1) (by decide)⟩

/-- C10: every key of every mapping the engine produces — the Weekly
Summarizer's output, the Best-Subset Selector's filtered summary and its
chosen top-8 list, and the Future Allocation Planner's plan — is a fixed
point of `get_week_start` (a canonical Monday week-start). -/
theorem c10_all_keys_are_week_starts :
    (∀ (S : Finset ℤ) (p : ℤ × ℕ), p ∈ summarize_weeks S →
      get_week_start p.1 = p.1)
    ∧ (∀ (a : Finset ℤ) (r : ℤ) (p : ℤ × ℕ),
        p ∈ (best_8_week_attendance a r).2.1 → get_week_start p.1 = p.1)
    ∧ (∀ (a : Finset ℤ) (r : ℤ) (p : ℤ × ℕ),
        p ∈ (best_8_week_attendance a r).2.2 → get_week_start p.1 = p.1)
    ∧ (∀ (s : List (ℤ × ℕ)) (o : Finset ℤ) (r t : ℤ) (p : ℤ × ℤ),
        p ∈ calculate_future_needs s o r t → get_week_start p.1 = p.1) := by
  refine ⟨fun S p hp => summarize_key_fixed hp, fun a r p hp => ?_, fun a r p hp => ?_,
    fun s o r t p hp => ?_⟩
  · exact summarize_key_fixed (hp : p ∈ summarize_weeks (relevant_days a r))
  · exact summarize_key_fixed (mem_best8_mem_summary hp)
  · have hk : p.1 ∈ (calculate_future_needs s o r t).map Prod.fst :=
      List.mem_map_of_mem Prod.fst hp
    rw [calculate_future_needs, alloc_loop_keys] at hk
    have h7 := candidate_week_emod hk
    unfold get_week_start
    omega

unseal List.merge List.mergeSort in
/-- Witness for C10 at concrete inputs for each of the four components. -/
theorem c10_all_keys_are_week_starts_witness :
    get_week_start (((0 : ℤ), 1) : ℤ × ℕ).1 = (((0 : ℤ), 1) : ℤ × ℕ).1
    ∧ get_week_start (((-7 : ℤ), 1) : ℤ × ℕ).1 = (((-7 : ℤ), 1) : ℤ × ℕ).1
    ∧ get_week_start (((0 : ℤ), (3 : ℤ)) : ℤ × ℤ).1 = (((0 : ℤ), (3 : ℤ)) : ℤ × ℤ).1 :=
  ⟨c10_all_keys_are_week_starts.1 {0} (0, 1) (by decide),
   c10_all_keys_are_week_starts.2.2.1 {-7} 0 (-7, 1) (by decide),
   c10_all_keys_are_week_starts.2.2.2 [] ∅ 0 0 (0, 3) (by decide)⟩

/-- C8: the keys of the plan returned by the Future Allocation Planner are
exactly the candidate weeks (from `get_week_start today` through
`get_week_start (reference + 35)` inclusive, one step of 7 days per week),
every candidate week is present, the keys are in strictly ascending
chronological order, candidate weeks not reached by the allocation loop
are recorded with the value 0 (there is a cut `n` — the number of weeks
the loop processed — past which the plan is exactly the zero fill of the
remaining candidate weeks, and either the loop ran through the whole
window or the processed prefix absorbed the entire shortfall), and
whenever the elapsed-weeks count `num_weeks = (end - start) // 7 + 1` is
zero or negative the plan is empty. -/
theorem c8_plan_covers_candidate_weeks (s : List (ℤ × ℕ)) (o : Finset ℤ) (r t : ℤ) :
    (calculate_future_needs s o r t).map Prod.fst = candidate_weeks r t
    ∧ (∀ w : ℤ, w ∈ candidate_weeks r t ↔
        get_week_start t ≤ w ∧ w ≤ get_week_start (r + 35) ∧ w % 7 = 0)
    ∧ ((calculate_future_needs s o r t).map Prod.fst).Pairwise (· < ·)
    ∧ (∃ n : ℕ, n ≤ (candidate_weeks r t).length ∧
        (calculate_future_needs s o r t).drop n =
          ((candidate_weeks r t).drop n).map (fun w => (w, (0 : ℤ))) ∧
        (n = (candidate_weeks r t).length ∨
          (((calculate_future_needs s o r t).map Prod.snd).take n).sum =
            max (POLICY_DAYS_REQUIRED - (current_total s : ℤ)) 0))
    ∧ (num_weeks r t ≤ 0 → calculate_future_needs s o r t = []) := by
  refine ⟨alloc_loop_keys o _ _, fun w => mem_candidate_weeks_iff r t w, ?_,
    alloc_loop_zero_fill o (candidate_weeks r t) _, fun h => ?_⟩
  · rw [calculate_future_needs, alloc_loop_keys]
    exact candidate_weeks_pairwise r t
  · rw [calculate_future_needs, num_weeks_nonpos_candidates h]
    rfl

/-- Witness for C8 with `today` 100 weeks past the reference date, where
the elapsed-weeks count is negative and the plan is empty. -/
theorem c8_plan_covers_candidate_weeks_witness :
    num_weeks 0 700 ≤ 0 ∧ calculate_future_needs [] ∅ 0 700 = [] :=
  ⟨by decide, (c8_plan_covers_candidate_weeks [] ∅ 0 700).2.2.2.2 (by decide)⟩

unseal List.merge List.mergeSort in
/-- C1 (divergence evaluation): the claim that every plan value lies in
`0‥3` fails on the code.  With an empty summary, reference date and today
both at day 0, and six out-of-office days `{0,…,5}` marked in the current
week, the unclamped capacity `min(3, 5 - 6) = -1` is written into the
plan: the first plan value is `-1`, below 0. -/
theorem c1_unclamped_capacity_goes_negative :
    (calculate_future_needs [] ({0, 1, 2, 3, 4, 5} : Finset ℤ) 0 0).map Prod.snd =
      [-1, 3, 3, 3, 3, 3] := by decide

unseal List.merge List.mergeSort in
/-- C4 (counterexample): the Future Allocation Planner is not a function
of `(summary, ooo_days, reference_date)` alone — it reads the ambient
current date `datetime.today().date()` (threaded here as the argument
`today`), and two calls with identical declared arguments but different
current dates return different plans. -/
theorem c4_plan_depends_on_ambient_today :
    calculate_future_needs [] (∅ : Finset ℤ) 0 0 ≠
      calculate_future_needs [] (∅ : Finset ℤ) 0 7 := by decide

/-- C4 (amended): the Future Allocation Planner is a deterministic pure
function of its declared arguments together with the ambient current
calendar date: two calls with equal summary, out-of-office set, reference
date, and equal current date return equal plans. -/
theorem c4_deterministic_given_today (s : List (ℤ × ℕ)) (o : Finset ℤ)
    (r t t' : ℤ) (h : t = t') :
    calculate_future_needs s o r t = calculate_future_needs s o r t' := by
  rw [h]

/-- Witness for the amended C4 at concrete equal inputs. -/
theorem c4_deterministic_given_today_witness :
    calculate_future_needs [] (∅ : Finset ℤ) 0 0 =
      calculate_future_needs [] (∅ : Finset ℤ) 0 0 :=
  c4_deterministic_given_today [] ∅ 0 0 0 rfl

/-- C3: whenever the summed per-week capacities
`min(3, 5 - ooo_count week)` over the candidate window reach the
shortfall `max(24 - current_total, 0)`, the plan values sum to exactly
that shortfall. -/
theorem c3_allocation_exhausts_shortfall (s : List (ℤ × ℕ)) (o : Finset ℤ)
    (r t : ℤ)
    (h : max (POLICY_DAYS_REQUIRED - (current_total s : ℤ)) 0 ≤
      ((candidate_weeks r t).map (available_days o)).sum) :
    ((calculate_future_needs s o r t).map Prod.snd).sum =
      max (POLICY_DAYS_REQUIRED - (current_total s : ℤ)) 0 :=
  alloc_loop_sum o (candidate_weeks r t) _ (le_max_right _ _) h

unseal List.merge List.mergeSort in
/-- Witness for C3: an empty summary (shortfall 24) against a 16-week
candidate window of full capacity 3 each (capacity 48 ≥ 24). -/
theorem c3_allocation_exhausts_shortfall_witness :
    max (POLICY_DAYS_REQUIRED - (current_total [] : ℤ)) 0 ≤
      ((candidate_weeks 70 0).map (available_days ∅)).sum
    ∧ ((calculate_future_needs [] ∅ 70 0).map Prod.snd).sum =
      max (POLICY_DAYS_REQUIRED - (current_total [] : ℤ)) 0 :=
  ⟨by decide, c3_allocation_exhausts_shortfall [] ∅ 70 0 (by decide)⟩

/-- C6: best-8 monotonicity — for a fixed reference date, adding an
attendance day `d ∉ S` never decreases the best-8 total returned by the
Best-Subset Selector. -/
theorem c6_best8_total_monotone (S : Finset ℤ) (d r : ℤ) (hd : d ∉ S) :
    (best_8_week_attendance S r).1 ≤ (best_8_week_attendance (insert d S) r).1 := by
  rw [best8_fst_eq_topsum, best8_fst_eq_topsum]
  unfold relevant_days
  rw [Finset.filter_insert]
  split
  · exact topsum_vals_insert_le _ d
      (fun hmem => hd (Finset.mem_filter.mp hmem).1) 8
  · exact le_refl _

unseal List.merge List.mergeSort in
/-- Witness for C6: adding the attendance day `-7` (inside the window of
reference date 0) to the empty set raises the best-8 total from 0 to 1. -/
theorem c6_best8_total_monotone_witness :
    (-7 : ℤ) ∉ (∅ : Finset ℤ)
    ∧ (best_8_week_attendance ∅ 0).1 ≤ (best_8_week_attendance (insert (-7) ∅) 0).1 :=
  ⟨by decide, c6_best8_total_monotone ∅ (-7) 0 (by decide)⟩

/-- C7: the chosen list of the Best-Subset Selector has at most 8
entries; when fewer than 8 distinct weeks in the window have attendance
(the filtered summary has fewer than 8 items) every summary item is
chosen; and the returned total is the sum of the counts of the chosen
list. -/
theorem c7_best8_cap (a : Finset ℤ) (r : ℤ) :
    (best_8_week_attendance a r).2.2.length ≤ 8
    ∧ ((best_8_week_attendance a r).2.1.length < 8 →
        ∀ p ∈ (best_8_week_attendance a r).2.1, p ∈ (best_8_week_attendance a r).2.2)
    ∧ (best_8_week_attendance a r).1 =
        ((best_8_week_attendance a r).2.2.map Prod.snd).sum := by
  refine ⟨?_, fun hlen p hp => ?_, rfl⟩
  · show (((summarize_weeks (relevant_days a r)).mergeSort
      descending_by_count).take 8).length ≤ 8
    rw [List.length_take]
    exact min_le_left _ _
  · show p ∈ ((summarize_weeks (relevant_days a r)).mergeSort
      descending_by_count).take 8
    rw [List.take_of_length_le]
    · exact ((summarize_weeks (relevant_days a r)).mergeSort_perm
        descending_by_count).mem_iff.mpr hp
    · rw [List.length_mergeSort]
      have hl : (best_8_week_attendance a r).2.1.length =
          (summarize_weeks (relevant_days a r)).length := rfl
      omega

unseal List.merge List.mergeSort in
/-- Witness for C7: with the single attendance day `-7` and reference
date 0 the summary has one item, fewer than 8, and it is chosen. -/
theorem c7_best8_cap_witness :
    (best_8_week_attendance {-7} 0).2.2.length ≤ 8
    ∧ (best_8_week_attendance {-7} 0).2.1.length < 8
    ∧ (((-7 : ℤ), 1) : ℤ × ℕ) ∈ (best_8_week_attendance {-7} 0).2.2 :=
  ⟨(c7_best8_cap {-7} 0).1, by decide,
   (c7_best8_cap {-7} 0).2.1 (by decide) (-7, 1) (by decide)⟩

end AttendanceTracker
